import Mathlib

set_option maxRecDepth 100000

/-!
# Verification of the resume-to-job matching engine

Shallow embedding of the AI/NLP matching engine of the
`ai-recruitment-system` repository, together with proofs of the
specification claims about it.

The repository ships two revisions of the engine:

* `src/src/utils/ai/nlp-engine.ts` — the original engine: no fallback
  skill inference, `calculateSkillMatch` returns 1 on an empty required
  list, and there is no override ("kill switch") rule.  Embedded below in
  namespace `NlpEngine`.
* the updated engine bundled in `src/src/utils/supabase/info.tsx`
  (after the document separator) — identical text-processing and
  extraction code, but `calculateSkillMatch` returns 0 on an empty
  required list, an effective required-skill set is derived by fallback
  extraction from the job description, and a kill-switch override caps
  the composite score.  Embedded below in namespace `FixedEngine`.

`SKILL_DATABASE`, `preprocessText`, `extractSkills`,
`calculateCoverageScore` and `calculateExperienceScore` are verbatim
identical in the two files and are embedded once, at top level.

Modelling conventions:

* JavaScript numbers are modelled as exact rationals (`ℚ`); the engine
  only adds, multiplies, divides and compares scores, so `ℚ` is the
  intended real-arithmetic reading of the code.
* Strings are Lean `String`s; character classes (`\w`, `\s`) follow the
  ECMAScript definitions.  `String.prototype.toLowerCase` is modelled by
  its restriction to ASCII (`jsToLower`); every lexicon entry and every
  character class the engine distinguishes is ASCII.
* A JavaScript `Set` iterated in insertion order is modelled by
  `jsSetOfList` (first-occurrence deduplication).
* `Math.round` is `⌊x + 1/2⌋` (`jsRound`), and the 2-decimal rounding
  `Math.round(x*100)/100` is `round2`.
-/

/-- ECMAScript `\w`: ASCII letters, digits and underscore. -/
def jsIsWordChar (c : Char) : Bool :=
  (65 ≤ c.toNat && c.toNat ≤ 90) || (97 ≤ c.toNat && c.toNat ≤ 122) ||
  (48 ≤ c.toNat && c.toNat ≤ 57) || c.toNat == 95

/-- ECMAScript `\s` (also the set trimmed by `String.prototype.trim`):
tab, LF, VT, FF, CR, space, NBSP, and the Unicode space separators. -/
def jsIsSpace (c : Char) : Bool :=
  c.toNat == 9 || c.toNat == 10 || c.toNat == 11 || c.toNat == 12 ||
  c.toNat == 13 || c.toNat == 32 || c.toNat == 160 || c.toNat == 0x1680 ||
  (0x2000 ≤ c.toNat && c.toNat ≤ 0x200a) || c.toNat == 0x2028 ||
  c.toNat == 0x2029 || c.toNat == 0x202f || c.toNat == 0x205f ||
  c.toNat == 0x3000 || c.toNat == 0xfeff

/-- Models `String.prototype.toLowerCase`, restricted to the ASCII range
(the only characters the engine's code ever distinguishes). -/
def jsToLower (c : Char) : Char :=
  if 65 ≤ c.toNat ∧ c.toNat ≤ 90 then Char.ofNat (c.toNat + 32) else c

/-- Lowercasing of a whole string (`s.toLowerCase()`). -/
def lowerStr (s : String) : String :=
  String.mk (s.data.map jsToLower)

/-- Models `Math.round`: round half toward positive infinity. -/
def jsRound (q : ℚ) : ℤ := ⌊q + 1/2⌋

/-- Models `Math.round(x * 100) / 100`: rounding a score to two decimals. -/
def round2 (q : ℚ) : ℚ := (jsRound (q * 100) : ℚ) / 100

/-- Models `Set.prototype.add` for a JavaScript `Set` represented as its
insertion-ordered element list. -/
def jsSetAdd {α : Type _} [DecidableEq α] (l : List α) (x : α) : List α :=
  if x ∈ l then l else l ++ [x]

/-- Models `new Set(list)`, represented as its insertion-ordered element list
(first occurrences, in order). -/
def jsSetOfList {α : Type _} [DecidableEq α] (l : List α) : List α :=
  l.foldl jsSetAdd []

/-- Reference formulation of first-occurrence deduplication, used to
state claims independently of the `foldl` implementation. -/
def distinctInOrder {α : Type _} [DecidableEq α] : List α → List α
  | [] => []
  | x :: xs => x :: distinctInOrder (xs.filter (fun y => y ≠ x))
termination_by l => l.length
decreasing_by
  simp only [List.length_cons]
  exact Nat.lt_succ_of_le (List.length_filter_le _ _)

theorem mem_jsSetAdd {α : Type _} [DecidableEq α] {l : List α} {x y : α} :
    y ∈ jsSetAdd l x ↔ y ∈ l ∨ y = x := by
  unfold jsSetAdd
  split
  · rename_i h
    constructor
    · exact Or.inl
    · rintro (hy | rfl)
      · exact hy
      · exact h
  · simp [List.mem_append]

theorem mem_foldl_jsSetAdd {α : Type _} [DecidableEq α] (l : List α) :
    ∀ (acc : List α) (y : α), y ∈ l.foldl jsSetAdd acc ↔ y ∈ acc ∨ y ∈ l := by
  induction l with
  | nil => simp
  | cons x xs ih =>
    intro acc y
    simp only [List.foldl_cons, ih, mem_jsSetAdd, List.mem_cons]
    tauto

theorem mem_jsSetOfList {α : Type _} [DecidableEq α] {l : List α} {y : α} :
    y ∈ jsSetOfList l ↔ y ∈ l := by
  unfold jsSetOfList
  rw [mem_foldl_jsSetAdd]
  simp

theorem foldl_jsSetAdd_eq_append {α : Type _} [DecidableEq α] (l : List α) :
    ∀ acc : List α,
      l.foldl jsSetAdd acc = acc ++ distinctInOrder (l.filter (fun y => y ∉ acc)) := by
  induction l with
  | nil => intro acc; simp [distinctInOrder]
  | cons x xs ih =>
    intro acc
    simp only [List.foldl_cons]
    by_cases hx : x ∈ acc
    · rw [show jsSetAdd acc x = acc from if_pos hx, ih]
      congr 1
      congr 1
      rw [List.filter_cons]
      simp [hx]
    · rw [show jsSetAdd acc x = acc ++ [x] from if_neg hx, ih]
      rw [List.filter_cons]
      simp only [hx, not_false_iff, decide_True]
      rw [List.append_assoc]
      congr 1
      have hfilter :
          xs.filter (fun y => y ∉ acc ++ [x]) =
            (xs.filter (fun y => y ∉ acc)).filter (fun y => y ≠ x) := by
        rw [List.filter_filter]
        apply List.filter_congr
        intro a _
        by_cases h1 : a ∈ acc <;> by_cases h2 : a = x <;> simp [h1, h2]
      rw [hfilter]
      simp [distinctInOrder]

theorem jsSetOfList_eq_distinctInOrder {α : Type _} [DecidableEq α] (l : List α) :
    jsSetOfList l = distinctInOrder l := by
  unfold jsSetOfList
  rw [foldl_jsSetAdd_eq_append]
  simp

theorem mem_distinctInOrder {α : Type _} [DecidableEq α] {l : List α} {y : α} :
    y ∈ distinctInOrder l ↔ y ∈ l := by
  induction l using distinctInOrder.induct with
  | case1 => simp [distinctInOrder]
  | case2 x xs ih =>
    rw [distinctInOrder]
    simp only [List.mem_cons, ih, List.mem_filter, decide_eq_true_eq]
    constructor
    · rintro (rfl | ⟨h, _⟩)
      · exact Or.inl rfl
      · exact Or.inr h
    · rintro (rfl | h)
      · exact Or.inl rfl
      · by_cases hy : y = x
        · exact Or.inl hy
        · exact Or.inr ⟨h, hy⟩

theorem nodup_distinctInOrder {α : Type _} [DecidableEq α] (l : List α) :
    (distinctInOrder l).Nodup := by
  induction l using distinctInOrder.induct with
  | case1 => simp [distinctInOrder]
  | case2 x xs ih =>
    rw [distinctInOrder]
    refine List.nodup_cons.2 ⟨?_, ih⟩
    intro hx
    have := mem_distinctInOrder.1 hx
    simp at this

theorem nodup_jsSetOfList {α : Type _} [DecidableEq α] (l : List α) :
    (jsSetOfList l).Nodup := by
  rw [jsSetOfList_eq_distinctInOrder]
  exact nodup_distinctInOrder l

/-! ## TextNormalizer: `preprocessText`

Embeds `preprocessText` from `src/src/utils/ai/nlp-engine.ts` (lines
100-131; byte-identical in the updated engine): lowercase, replace every
character outside `[\w\s.#+]` by a space, collapse whitespace runs,
trim, split on spaces, and drop short tokens and stop words. -/

/-- The character-keeping test of the regex `[^\w\s.#+]` replacement:
characters matching `[\w\s.#+]` are kept, everything else becomes `' '`. -/
def keptChar (c : Char) : Bool :=
  jsIsWordChar c || jsIsSpace c || c.toNat == 46 || c.toNat == 35 || c.toNat == 43

/-- One character of `.replace(/[^\w\s.#+]/g, ' ')`. -/
def normalizeChar (c : Char) : Char :=
  if keptChar c then c else ' '

/-- Helper for `collapseWS`: the flag records whether the previous
character belonged to a whitespace run that has already emitted its
single `' '`. -/
def collapseWSAux : Bool → List Char → List Char
  | _, [] => []
  | prevSpace, c :: rest =>
    if jsIsSpace c then
      if prevSpace then collapseWSAux true rest
      else ' ' :: collapseWSAux true rest
    else c :: collapseWSAux false rest

/-- Models `.replace(/\s+/g, ' ')`: every maximal run of whitespace characters
becomes a single `' '`. -/
def collapseWS (l : List Char) : List Char := collapseWSAux false l

/-- Models `.trim()`: drop leading and trailing whitespace. -/
def trimChars (l : List Char) : List Char :=
  ((l.dropWhile jsIsSpace).reverse.dropWhile jsIsSpace).reverse

/-- Models `.split(' ')`: split on single space characters (ECMAScript
semantics: `n` separators yield `n + 1` fields, `"".split(' ') = [""]`). -/
def splitSpace : List Char → List (List Char)
  | [] => [[]]
  | c :: rest =>
    if c = ' ' then [] :: splitSpace rest
    else
      match splitSpace rest with
      | [] => [[c]]
      | w :: ws => (c :: w) :: ws

/-- The stop-word set of `preprocessText`. -/
def stopWords : List String :=
  ["the", "a", "an", "and", "or", "but", "in", "on", "at", "to", "for",
   "of", "with", "by", "from", "up", "about", "into", "through", "during",
   "is", "are", "was", "were", "be", "been", "being", "have", "has", "had",
   "do", "does", "did", "will", "would", "could", "should", "may", "might",
   "must", "can", "i", "you", "he", "she", "it", "we", "they", "me", "him",
   "her", "us", "them", "my", "your", "his", "its", "our", "their", "this",
   "that", "these", "those", "am", "as", "than", "so", "very", "just", "too",
   "also", "like", "use", "using", "used", "work", "worked", "working",
   "experience", "experienced", "year", "years", "month", "months", "knowledge",
   "proficient", "proficiency", "skill", "skills", "ability", "responsible",
   "responsibility", "responsibilities", "role", "team", "member", "project",
   "projects", "application", "applications", "various", "including", "etc",
   "good", "excellent", "strong", "proven", "track", "record", "successful",
   "successfully", "demonstrated", "familiar", "familiarity"]

/-- The final filter of `preprocessText`:
`word => word.length > 2 && !stopWords.has(word)`. -/
def keepWord (w : String) : Bool :=
  decide (2 < w.length) && !decide (w ∈ stopWords)

/-- The character pipeline of `preprocessText` before the word filter:
lowercase, replace, collapse, trim, split. -/
def pipelineChars (cs : List Char) : List (List Char) :=
  splitSpace (trimChars (collapseWS ((cs.map jsToLower).map normalizeChar)))

/-- Embeds `preprocessText` from `nlp-engine.ts`: `if (!text) return []`, then
the normalization pipeline followed by the stop-word/length filter. -/
def preprocessText (text : String) : List String :=
  if text = "" then []
  else ((pipelineChars text.data).map (fun w => String.mk w)).filter keepWord

example : preprocessText "" = [] := by decide
example :
    preprocessText "5 years experience in Python and React" =
      ["python", "react"] := by decide
example :
    preprocessText "  Team-PLAYER, C++ & node.js!!" = ["player", "c++", "node.js"] := by
  decide

/-! ## SkillLexicon and SkillExtractor

Embeds `SKILL_DATABASE` (lines 8-94) and `extractSkills` (lines 136-157)
of `nlp-engine.ts` (byte-identical in the updated engine).  The per-entry
regex `\b<escaped entry>\b` (flag `i`) built by `extractSkills` is a
literal pattern between two ECMAScript word-boundary assertions; `\b`
holds at a position iff exactly one of the two adjacent characters
(string ends counting as non-word) is a `\w` character. -/

def SKILL_DATABASE : List String :=
  ["JavaScript", "TypeScript", "Python", "Java", "C++", "C#", "C", "Go", "Rust", "Swift",
   "Kotlin", "Ruby", "PHP", "Scala", "R", "MATLAB", "Perl", "Objective-C", "Dart", "Elixir",
   "React", "Angular", "Vue.js", "Next.js", "Node.js", "Express", "Django", "Flask", "FastAPI",
   "Spring Boot", "ASP.NET", "Laravel", "Rails", "HTML", "CSS", "Tailwind CSS", "Bootstrap",
   "SASS", "LESS", "Webpack", "Vite", "Redux", "MobX", "GraphQL", "REST API", "WebSocket",
   "React Native", "Flutter", "iOS Development", "Android Development", "SwiftUI", "Jetpack Compose",
   "Xamarin", "Ionic", "Cordova",
   "SQL", "PostgreSQL", "MySQL", "MongoDB", "Redis", "Cassandra", "DynamoDB", "Oracle",
   "Microsoft SQL Server", "SQLite", "Elasticsearch", "Neo4j", "Supabase", "Firebase",
   "AWS", "Azure", "Google Cloud", "Docker", "Kubernetes", "Jenkins", "GitLab CI", "GitHub Actions",
   "Terraform", "Ansible", "CircleCI", "Travis CI", "Heroku", "Vercel", "Netlify",
   "Machine Learning", "Deep Learning", "Neural Networks", "TensorFlow", "PyTorch", "Keras",
   "Scikit-learn", "NLP", "Computer Vision", "OpenCV", "NLTK", "spaCy", "Transformers",
   "LLM", "GPT", "BERT", "Data Science", "Statistics", "Pandas", "NumPy", "Matplotlib",
   "ETL", "Data Pipeline", "Apache Spark", "Hadoop", "Airflow", "Kafka", "Data Warehouse",
   "BigQuery", "Snowflake", "Databricks", "dbt",
   "Jest", "Mocha", "Cypress", "Selenium", "Playwright", "JUnit", "PyTest", "Unit Testing",
   "Integration Testing", "E2E Testing", "Test Automation", "TDD", "BDD",
   "Git", "GitHub", "GitLab", "Bitbucket", "Agile", "Scrum", "Kanban", "Jira", "Confluence",
   "Figma", "Sketch", "Adobe XD", "Photoshop", "Illustrator", "CI/CD", "Microservices",
   "Cybersecurity", "Penetration Testing", "Ethical Hacking", "OAuth", "JWT", "Encryption",
   "SSL/TLS", "OWASP", "Security Auditing",
   "Business Analysis", "Product Management", "Project Management", "Data Analysis",
   "Tableau", "Power BI", "Google Analytics", "Excel", "Financial Analysis", "Forecasting",
   "Leadership", "Communication", "Teamwork", "Problem Solving", "Critical Thinking",
   "Collaboration", "Time Management", "Presentation", "Mentoring", "Strategic Planning",
   "UI/UX Design", "Graphic Design", "Web Design", "Mobile Design", "Prototyping",
   "Wireframing", "User Research", "Usability Testing", "Design Systems", "Responsive Design",
   "Digital Marketing", "SEO", "SEM", "Content Marketing", "Social Media Marketing",
   "Email Marketing", "Sales", "CRM", "Salesforce", "HubSpot",
   "Blockchain", "Ethereum", "Solidity", "Smart Contracts", "Web3", "DeFi", "NFT",
   "Unity", "Unreal Engine", "Game Design", "3D Modeling", "Blender", "Maya",
   "TCP/IP", "DNS", "Network Security", "VPN", "Load Balancing", "CDN",
   "API Development", "Microservices Architecture", "System Design", "Distributed Systems",
   "Scalability", "Performance Optimization", "Code Review", "Technical Writing",
   "Documentation", "Debugging", "Refactoring", "Design Patterns", "OOP", "Functional Programming",
   "Healthcare IT", "FinTech", "E-commerce", "EdTech", "IoT", "AR/VR", "Embedded Systems",
   "Robotics", "Automotive", "Telecommunications", "Retail", "Manufacturing",
   "PMP", "CISSP", "CEH", "CCNA", "CompTIA", "Six Sigma", "ITIL", "ISO 27001",
   "Linux", "Unix", "Shell Scripting", "Bash", "PowerShell", "VBA", "SAP", "ERP",
   "Salesforce", "ServiceNow", "Workday", "Oracle EBS",
   "Quantum Computing", "Edge Computing", "5G", "Automation", "RPA", "Low-Code", "No-Code"]

/-- The word-character test applied to an optional adjacent character;
a string end counts as a non-word character (ECMAScript `\b`). -/
def isWordOpt : Option Char → Bool
  | none => false
  | some c => jsIsWordChar c

/-- The regex `\b<literal pattern>\b` matches `text` at index `i`:
the pattern occurs literally at `i`, and a word boundary holds at both
ends (the word-ness of the adjacent text character differs from the
word-ness of the pattern's first resp. last character). -/
def matchesAt (text pat : List Char) (i : Nat) : Bool :=
  decide ((text.drop i).take pat.length = pat) &&
  (isWordOpt (if i = 0 then none else text[i-1]?) != isWordOpt pat.head?) &&
  (isWordOpt text[i + pat.length]? != isWordOpt pat.getLast?)

/-- Models `regex.test(normalizedText)`: the pattern matches at some index. -/
def testPattern (text pat : List Char) : Bool :=
  (List.range (text.length + 1)).any (fun i => matchesAt text pat i)

/-- The list `SKILL_DATABASE` sorted by descending character length
(`[...SKILL_DATABASE].sort((a, b) => b.length - a.length)`; ECMAScript
sort is stable, and a stable sort by this comparator is exactly
insertion sort by the reflexive relation `b.length ≤ a.length`). -/
def sortedSkills : List String :=
  SKILL_DATABASE.insertionSort (fun a b => b.length ≤ a.length)

/-- Embeds `extractSkills` from `nlp-engine.ts`: scan the length-sorted lexicon,
testing each entry's boundary pattern against the lowercased text, and
collect matching entries' canonical forms in a `Set`. -/
def extractSkills (text : String) : List String :=
  if text = "" then []
  else
    let normalizedText := text.data.map jsToLower
    sortedSkills.foldl
      (fun foundSkills skill =>
        if testPattern normalizedText (skill.data.map jsToLower) then
          jsSetAdd foundSkills skill
        else foundSkills)
      []

example : extractSkills "" = [] := by decide
example : extractSkills "python" = ["Python"] := by decide
example :
    extractSkills "React Native developer using React" =
      ["React Native", "React"] := by decide

/-! ## Sub-scores shared by both engine revisions -/

/-- Embeds `calculateCoverageScore` (`nlp-engine.ts` lines 183-203, identical up
to comments in the updated engine): the fraction of the job description's distinct
tokens that also occur among the resume's distinct tokens; 0 for an
empty job token list. -/
def calculateCoverageScore (resumeWords jobWords : List String) : ℚ :=
  if jobWords.length = 0 then 0
  else
    let jobUniqueWords := jsSetOfList jobWords
    let resumeUniqueWords := jsSetOfList resumeWords
    let matchCount := (jobUniqueWords.filter (fun w => decide (w ∈ resumeUniqueWords))).length
    (matchCount : ℚ) / (jobUniqueWords.length : ℚ)

/-- Embeds `calculateExperienceScore` (`nlp-engine.ts` lines 229-241, identical up
to comments in the updated engine).  `!requiredYears || requiredYears === 0` holds
for a rational exactly when it equals 0. -/
def calculateExperienceScore (resumeYears requiredYears : ℚ) : ℚ :=
  if requiredYears = 0 then 1
  else if resumeYears ≥ requiredYears then 1
  else if resumeYears ≥ requiredYears * 0.5 then 0.8
  else if resumeYears ≥ 1 then 0.5
  else 0.2

/-- The shared result record (`interface MatchResult`). -/
structure MatchResult where
  matchScore : ℚ
  textSimilarity : ℚ
  skillMatch : ℚ
  experienceScore : ℚ
  matchedSkills : List String
  missingSkills : List String
  matchedKeywords : List String
  explanation : String
deriving Repr, DecidableEq

/-! ## The original engine (`src/src/utils/ai/nlp-engine.ts`) -/

namespace NlpEngine

/-- Embeds `calculateSkillMatch` (lines 208-223): 1 when no skills are
required, otherwise the fraction of required skills present
(case-insensitively) in the resume skills. -/
def calculateSkillMatch (resumeSkills requiredSkills : List String) : ℚ :=
  if requiredSkills.length = 0 then 1
  else
    let normalizedResumeSkills := resumeSkills.map lowerStr
    let normalizedRequiredSkills := requiredSkills.map lowerStr
    let matchCount :=
      (normalizedRequiredSkills.filter (fun q => decide (q ∈ normalizedResumeSkills))).length
    (matchCount : ℚ) / (requiredSkills.length : ℚ)

/-- Embeds `generateExplanation` (lines 331-363). -/
def generateExplanation (matchScore skillMatch : ℚ)
    (matchedSkills missingSkills : List String)
    (experienceScore _resumeYears _requiredYears : ℚ) : String :=
  let percentage := jsRound (matchScore * 100)
  let base := "Overall match: " ++ toString percentage ++ "%. "
  let skillPart :=
    if skillMatch ≥ 0.8 then
      "Strong skill match (" ++ toString (jsRound (skillMatch * 100)) ++ "%) with " ++
        toString matchedSkills.length ++ " of " ++
        toString (matchedSkills.length + missingSkills.length) ++ " required skills. "
    else if skillMatch ≥ 0.5 then
      "Good skill match (" ++ toString (jsRound (skillMatch * 100)) ++ "%). "
    else
      "Partial skill match (" ++ toString (jsRound (skillMatch * 100)) ++ "%). "
  let expPart :=
    if experienceScore ≥ 0.8 then "Experience requirement met."
    else if experienceScore ≥ 0.5 then "Close to experience requirement."
    else "Below experience requirement."
  base ++ skillPart ++ expPart

/-- Embeds `calculateMatch` (lines 257-326): weighted composite of coverage,
skill match and experience, with no fallback extraction and no
override. -/
def calculateMatch (resumeText jobDescription : String)
    (resumeSkills requiredSkills : List String)
    (resumeYearsExp requiredYearsExp : ℚ) : MatchResult :=
  let resumeWords := preprocessText resumeText
  let jobWords := preprocessText jobDescription
  let coverageScore := calculateCoverageScore resumeWords jobWords
  let skillMatch := calculateSkillMatch resumeSkills requiredSkills
  let experienceScore := calculateExperienceScore resumeYearsExp requiredYearsExp
  let matchScore := coverageScore * 0.30 + skillMatch * 0.50 + experienceScore * 0.20
  let resumeSet := jsSetOfList resumeWords
  let jobSet := jsSetOfList jobWords
  let matchedKeywords := jobSet.filter (fun w => decide (w ∈ resumeSet))
  let normalizedResumeSkills := resumeSkills.map lowerStr
  let matchedSkills :=
    requiredSkills.filter (fun s => decide (lowerStr s ∈ normalizedResumeSkills))
  let missingSkills :=
    requiredSkills.filter (fun s => !decide (lowerStr s ∈ normalizedResumeSkills))
  let explanation :=
    generateExplanation matchScore skillMatch matchedSkills missingSkills
      experienceScore resumeYearsExp requiredYearsExp
  { matchScore := round2 matchScore
    textSimilarity := round2 coverageScore
    skillMatch := round2 skillMatch
    experienceScore := round2 experienceScore
    matchedSkills := matchedSkills
    missingSkills := missingSkills
    matchedKeywords := matchedKeywords.take 10
    explanation := explanation }

end NlpEngine

/-! ## The updated engine (bundled in `src/src/utils/supabase/info.tsx`) -/

namespace FixedEngine

/-- Embeds `calculateSkillMatch` of the updated engine: 0 (not 1) when the
required list is empty. -/
def calculateSkillMatch (resumeSkills requiredSkills : List String) : ℚ :=
  if requiredSkills.length = 0 then 0
  else
    let normalizedResumeSkills := resumeSkills.map lowerStr
    let normalizedRequiredSkills := requiredSkills.map lowerStr
    let matchCount :=
      (normalizedRequiredSkills.filter (fun q => decide (q ∈ normalizedResumeSkills))).length
    (matchCount : ℚ) / (requiredSkills.length : ℚ)

/-- The fallback skill inference of the updated `calculateMatch`:
`effectiveRequiredSkills = requiredSkills`, replaced by
`extractSkills(jobDescription)` when the declared list is empty. -/
def effectiveRequiredSkills (requiredSkills : List String) (jobDescription : String) :
    List String :=
  if requiredSkills.length = 0 then extractSkills jobDescription else requiredSkills

/-- The kill-switch trigger of the updated `calculateMatch`:
`effectiveRequiredSkills.length > 0 && skillMatch < 0.20`. -/
def penaltyApplied (resumeSkills requiredSkills : List String)
    (jobDescription : String) : Prop :=
  0 < (effectiveRequiredSkills requiredSkills jobDescription).length ∧
    calculateSkillMatch resumeSkills (effectiveRequiredSkills requiredSkills jobDescription)
      < 0.20

instance (resumeSkills requiredSkills : List String) (jobDescription : String) :
    Decidable (penaltyApplied resumeSkills requiredSkills jobDescription) := by
  unfold penaltyApplied
  infer_instance

/-- Embeds `generateExplanation` of the updated engine (no matched-skill counts
in the strong branch; experience branches `>= 0.8`, `> 0`, `== 0`). -/
def generateExplanation (matchScore skillMatch : ℚ)
    (_matchedSkills _missingSkills : List String)
    (experienceScore _resumeYears _requiredYears : ℚ) : String :=
  let percentage := jsRound (matchScore * 100)
  let base := "Overall match: " ++ toString percentage ++ "%. "
  let skillPart :=
    if skillMatch ≥ 0.8 then
      "Strong skill match (" ++ toString (jsRound (skillMatch * 100)) ++ "%). "
    else if skillMatch ≥ 0.5 then
      "Good skill match (" ++ toString (jsRound (skillMatch * 100)) ++ "%). "
    else
      "Partial skill match (" ++ toString (jsRound (skillMatch * 100)) ++ "%). "
  let expPart :=
    if experienceScore ≥ 0.8 then "Experience requirement met."
    else if experienceScore > 0 then "Experience considered."
    else "Experience mismatch or ignored."
  base ++ skillPart ++ expPart

/-- The override notice prepended to the explanation when the kill
switch fires. -/
def overrideNotice (skillMatch : ℚ) : String :=
  "Low skill match (" ++ toString (jsRound (skillMatch * 100)) ++
    "%). Experience ignored due to skill mismatch. "

/-- Embeds `calculateMatch` of the updated engine: fallback skill inference,
kill-switch zeroing of the experience contribution, cap of the composite
at 0.20, and the override notice prepended to the explanation. -/
def calculateMatch (resumeText jobDescription : String)
    (resumeSkills requiredSkills : List String)
    (resumeYearsExp requiredYearsExp : ℚ) : MatchResult :=
  let resumeWords := preprocessText resumeText
  let jobWords := preprocessText jobDescription
  let eff := effectiveRequiredSkills requiredSkills jobDescription
  let coverageScore := calculateCoverageScore resumeWords jobWords
  let skillMatch := calculateSkillMatch resumeSkills eff
  let experienceScore :=
    if penaltyApplied resumeSkills requiredSkills jobDescription then 0
    else calculateExperienceScore resumeYearsExp requiredYearsExp
  let normalizedResumeSkills := resumeSkills.map lowerStr
  let matchedSkills :=
    eff.filter (fun s => decide (lowerStr s ∈ normalizedResumeSkills))
  let missingSkills :=
    eff.filter (fun s => !decide (lowerStr s ∈ normalizedResumeSkills))
  let resumeSet := jsSetOfList resumeWords
  let jobSet := jsSetOfList jobWords
  let matchedKeywords := jobSet.filter (fun w => decide (w ∈ resumeSet))
  let rawScore := coverageScore * 0.30 + skillMatch * 0.50 + experienceScore * 0.20
  let matchScore :=
    if penaltyApplied resumeSkills requiredSkills jobDescription then min rawScore 0.20
    else rawScore
  let explanation0 :=
    generateExplanation matchScore skillMatch matchedSkills missingSkills
      experienceScore resumeYearsExp requiredYearsExp
  let explanation :=
    if penaltyApplied resumeSkills requiredSkills jobDescription then
      overrideNotice skillMatch ++ explanation0
    else explanation0
  { matchScore := round2 matchScore
    textSimilarity := round2 coverageScore
    skillMatch := round2 skillMatch
    experienceScore := round2 experienceScore
    matchedSkills := matchedSkills
    missingSkills := missingSkills
    matchedKeywords := matchedKeywords.take 10
    explanation := explanation }

end FixedEngine

/-! ## Spec-side formulations and rounding facts -/

/-- The experience banding cascade exactly as §4.5 of the spec writes it:
first applicable of requiredYears ≤ 0 → 1.0; resumeYears ≥ requiredYears
→ 1.0; resumeYears ≥ 0.5 × requiredYears → 0.8; resumeYears ≥ 1 → 0.5;
otherwise 0.2. -/
def expBandSpec (resumeYears requiredYears : ℚ) : ℚ :=
  if requiredYears ≤ 0 then 1
  else if resumeYears ≥ requiredYears then 1
  else if resumeYears ≥ 0.5 * requiredYears then 0.8
  else if resumeYears ≥ 1 then 0.5
  else 0.2

theorem round2_le_of_le_fifth {x : ℚ} (h : x ≤ 0.20) : round2 x ≤ 0.20 := by
  unfold round2 jsRound
  rw [div_le_iff₀ (by norm_num : (0:ℚ) < 100)]
  have hmono : x * 100 + 1/2 ≤ (20.5 : ℚ) := by nlinarith
  have hf : (⌊x * 100 + 1/2⌋ : ℤ) ≤ 20 := by
    have hle := Int.floor_le_floor hmono
    have h20 : (⌊(20.5 : ℚ)⌋ : ℤ) = 20 := by norm_num
    omega
  calc ((⌊x * 100 + 1/2⌋ : ℤ) : ℚ) ≤ (20 : ℚ) := by exact_mod_cast hf
    _ = 0.20 * 100 := by norm_num

/-- C5: for every resumeYears ≥ 0 and requiredYears ≥ 0, the experience
sub-score is exactly the first applicable band of the spec's cascade:
requiredYears ≤ 0 → 1.0; resumeYears ≥ requiredYears → 1.0;
resumeYears ≥ 0.5 × requiredYears → 0.8; resumeYears ≥ 1 → 0.5;
otherwise 0.2. -/
theorem claim_C5 (resumeYears requiredYears : ℚ)
    (h1 : 0 ≤ resumeYears) (h2 : 0 ≤ requiredYears) :
    calculateExperienceScore resumeYears requiredYears =
      expBandSpec resumeYears requiredYears := by
  unfold calculateExperienceScore expBandSpec
  by_cases h0 : requiredYears = 0
  · rw [if_pos h0, if_pos (le_of_eq h0)]
  · have hneg : ¬ requiredYears ≤ 0 := fun hle => h0 (le_antisymm hle h2)
    rw [if_neg h0, if_neg hneg]
    have hc : requiredYears * 0.5 = 0.5 * requiredYears := by ring
    rw [hc]

/-- Witness for C5 at the spec's boundary examples: (2.5, 5) discharges
the hypotheses of `claim_C5` concretely, and the five boundary values of
§8 are computed directly. -/
theorem claim_C5_witness :
    calculateExperienceScore 2.5 5 = expBandSpec 2.5 5 ∧
    calculateExperienceScore 5 5 = 1 ∧
    calculateExperienceScore 2.5 5 = 0.8 ∧
    calculateExperienceScore 1 10 = 0.5 ∧
    calculateExperienceScore 0 10 = 0.2 ∧
    calculateExperienceScore 0 0 = 1 :=
  ⟨claim_C5 2.5 5 (by norm_num) (by norm_num),
   by norm_num [calculateExperienceScore],
   by norm_num [calculateExperienceScore],
   by norm_num [calculateExperienceScore],
   by norm_num [calculateExperienceScore],
   by norm_num [calculateExperienceScore]⟩

/-- The `experienceScore` field of the original engine's result is the
rounded raw experience sub-score. -/
theorem NlpEngine.calculateMatch_experienceScore (rt jd : String)
    (rs reqS : List String) (ry rq : ℚ) :
    (NlpEngine.calculateMatch rt jd rs reqS ry rq).experienceScore =
      round2 (calculateExperienceScore ry rq) := rfl

/-- C10: for every resumeYears ≥ 0 and requiredYears ≥ 0, the experience
sub-score is one of exactly {1, 0.8, 0.5, 0.2}; hence the rounded
`experienceScore` field of the original engine's `MatchResult` is also
one of those four values, and in particular never 0. -/
theorem claim_C10 (ry rq : ℚ) (h1 : 0 ≤ ry) (h2 : 0 ≤ rq)
    (rt jd : String) (rs reqS : List String) :
    (calculateExperienceScore ry rq = 1 ∨ calculateExperienceScore ry rq = 0.8 ∨
     calculateExperienceScore ry rq = 0.5 ∨ calculateExperienceScore ry rq = 0.2) ∧
    ((NlpEngine.calculateMatch rt jd rs reqS ry rq).experienceScore = 1 ∨
     (NlpEngine.calculateMatch rt jd rs reqS ry rq).experienceScore = 0.8 ∨
     (NlpEngine.calculateMatch rt jd rs reqS ry rq).experienceScore = 0.5 ∨
     (NlpEngine.calculateMatch rt jd rs reqS ry rq).experienceScore = 0.2) ∧
    (NlpEngine.calculateMatch rt jd rs reqS ry rq).experienceScore ≠ 0 := by
  have hbands :
      calculateExperienceScore ry rq = 1 ∨ calculateExperienceScore ry rq = 0.8 ∨
      calculateExperienceScore ry rq = 0.5 ∨ calculateExperienceScore ry rq = 0.2 := by
    unfold calculateExperienceScore
    split_ifs <;> simp
  have r1 : round2 1 = 1 := by norm_num [round2, jsRound]
  have r2 : round2 0.8 = 0.8 := by norm_num [round2, jsRound]
  have r3 : round2 0.5 = 0.5 := by norm_num [round2, jsRound]
  have r4 : round2 0.2 = 0.2 := by norm_num [round2, jsRound]
  refine ⟨hbands, ?_, ?_⟩
  · rw [NlpEngine.calculateMatch_experienceScore]
    rcases hbands with h | h | h | h <;> rw [h]
    · exact Or.inl r1
    · exact Or.inr (Or.inl r2)
    · exact Or.inr (Or.inr (Or.inl r3))
    · exact Or.inr (Or.inr (Or.inr r4))
  · rw [NlpEngine.calculateMatch_experienceScore]
    rcases hbands with h | h | h | h <;> rw [h] <;> norm_num [round2, jsRound]

/-- Witness for C10 at (resumeYears, requiredYears) = (0, 10) with empty
documents and skill lists. -/
theorem claim_C10_witness :
    (calculateExperienceScore 0 10 = 1 ∨ calculateExperienceScore 0 10 = 0.8 ∨
     calculateExperienceScore 0 10 = 0.5 ∨ calculateExperienceScore 0 10 = 0.2) ∧
    ((NlpEngine.calculateMatch "" "" [] [] 0 10).experienceScore = 1 ∨
     (NlpEngine.calculateMatch "" "" [] [] 0 10).experienceScore = 0.8 ∨
     (NlpEngine.calculateMatch "" "" [] [] 0 10).experienceScore = 0.5 ∨
     (NlpEngine.calculateMatch "" "" [] [] 0 10).experienceScore = 0.2) ∧
    (NlpEngine.calculateMatch "" "" [] [] 0 10).experienceScore ≠ 0 :=
  claim_C10 0 10 (by norm_num) (by norm_num) "" "" [] []

/-- C4: the coverage sub-score is the number of distinct job tokens that
also occur among the resume's distinct tokens, divided by the number of
distinct job tokens; for an empty job token sequence it is 0 regardless
of the resume. -/
theorem claim_C4 (resumeWords jobWords : List String) :
    calculateCoverageScore resumeWords jobWords =
      if jobWords = [] then 0
      else ((jobWords.toFinset ∩ resumeWords.toFinset).card : ℚ) /
        (jobWords.toFinset.card : ℚ) := by
  unfold calculateCoverageScore
  by_cases hj : jobWords = []
  · simp [hj]
  · have hlen : ¬ jobWords.length = 0 := by
      simpa using fun h => hj (List.length_eq_zero.1 h)
    rw [if_neg hlen, if_neg hj]
    have hD : (jsSetOfList jobWords).Nodup := nodup_jsSetOfList jobWords
    have hDF :
        ((jsSetOfList jobWords).filter
          (fun w => decide (w ∈ jsSetOfList resumeWords))).Nodup := hD.filter _
    have h1 :
        ((jsSetOfList jobWords).filter
          (fun w => decide (w ∈ jsSetOfList resumeWords))).toFinset =
          jobWords.toFinset ∩ resumeWords.toFinset := by
      ext a
      simp [List.mem_toFinset, List.mem_filter, mem_jsSetOfList, Finset.mem_inter]
    have h2 : (jsSetOfList jobWords).toFinset = jobWords.toFinset := by
      ext a
      simp [List.mem_toFinset, mem_jsSetOfList]
    rw [← h1, ← h2, List.toFinset_card_of_nodup hDF, List.toFinset_card_of_nodup hD]

/-- The `matchedSkills` field of the updated engine's result. -/
theorem FixedEngine.calculateMatch_matchedSkills (rt jd : String)
    (rs reqS : List String) (ry rq : ℚ) :
    (FixedEngine.calculateMatch rt jd rs reqS ry rq).matchedSkills =
      (FixedEngine.effectiveRequiredSkills reqS jd).filter
        (fun s => decide (lowerStr s ∈ rs.map lowerStr)) := rfl

/-- The `missingSkills` field of the updated engine's result. -/
theorem FixedEngine.calculateMatch_missingSkills (rt jd : String)
    (rs reqS : List String) (ry rq : ℚ) :
    (FixedEngine.calculateMatch rt jd rs reqS ry rq).missingSkills =
      (FixedEngine.effectiveRequiredSkills reqS jd).filter
        (fun s => !decide (lowerStr s ∈ rs.map lowerStr)) := rfl

/-- C6: `matchedSkills` and `missingSkills` partition the effective
required-skill set exactly — every entry of the effective set is in
exactly one of the two lists, according to its case-insensitive presence
in `resumeSkills`, and nothing else is in either list. -/
theorem claim_C6 (rt jd : String) (rs reqS : List String) (ry rq : ℚ) :
    (∀ s, (s ∈ (FixedEngine.calculateMatch rt jd rs reqS ry rq).matchedSkills ∨
           s ∈ (FixedEngine.calculateMatch rt jd rs reqS ry rq).missingSkills) ↔
          s ∈ FixedEngine.effectiveRequiredSkills reqS jd) ∧
    (∀ s, ¬ (s ∈ (FixedEngine.calculateMatch rt jd rs reqS ry rq).matchedSkills ∧
             s ∈ (FixedEngine.calculateMatch rt jd rs reqS ry rq).missingSkills)) ∧
    (∀ s, s ∈ FixedEngine.effectiveRequiredSkills reqS jd →
          (s ∈ (FixedEngine.calculateMatch rt jd rs reqS ry rq).matchedSkills ↔
           lowerStr s ∈ rs.map lowerStr)) := by
  rw [FixedEngine.calculateMatch_matchedSkills, FixedEngine.calculateMatch_missingSkills]
  refine ⟨?_, ?_, ?_⟩
  · intro s
    simp only [List.mem_filter, decide_eq_true_eq, Bool.not_eq_true',
      decide_eq_false_iff_not]
    by_cases hmem : lowerStr s ∈ rs.map lowerStr <;> simp [hmem]
  · intro s
    simp only [List.mem_filter, decide_eq_true_eq, Bool.not_eq_true',
      decide_eq_false_iff_not]
    tauto
  · intro s hs
    simp [List.mem_filter, hs]

/-- The `matchedKeywords` field of the original engine's result. -/
theorem NlpEngine.calculateMatch_matchedKeywords (rt jd : String)
    (rs reqS : List String) (ry rq : ℚ) :
    (NlpEngine.calculateMatch rt jd rs reqS ry rq).matchedKeywords =
      ((jsSetOfList (preprocessText jd)).filter
        (fun w => decide (w ∈ jsSetOfList (preprocessText rt)))).take 10 := rfl

/-- C9: `matchedKeywords` is exactly the first 10 (or all, if fewer)
distinct normalized job tokens that also occur in the normalized resume,
in order of first occurrence in the normalized job text. -/
theorem claim_C9 (rt jd : String) (rs reqS : List String) (ry rq : ℚ) :
    (NlpEngine.calculateMatch rt jd rs reqS ry rq).matchedKeywords =
      ((distinctInOrder (preprocessText jd)).filter
        (fun w => decide (w ∈ preprocessText rt))).take 10 := by
  rw [NlpEngine.calculateMatch_matchedKeywords, jsSetOfList_eq_distinctInOrder,
    jsSetOfList_eq_distinctInOrder]
  congr 1
  apply List.filter_congr
  intro a _
  exact decide_eq_decide.2 mem_distinctInOrder

theorem FixedEngine.effectiveRequiredSkills_nil (jd : String) :
    FixedEngine.effectiveRequiredSkills [] jd = extractSkills jd := by
  unfold FixedEngine.effectiveRequiredSkills
  simp

theorem FixedEngine.effectiveRequiredSkills_extract (jd : String) :
    FixedEngine.effectiveRequiredSkills (extractSkills jd) jd = extractSkills jd := by
  unfold FixedEngine.effectiveRequiredSkills
  split <;> rfl

/-- C3: when the declared required-skill list is empty, the skills
extracted from the job description are the effective required set, and
the whole match result — skill-match score, matched/missing lists, and
the override behaviour — is exactly what it would be had those extracted
skills been declared. -/
theorem claim_C3 (rt jd : String) (rs : List String) (ry rq : ℚ) :
    FixedEngine.effectiveRequiredSkills [] jd = extractSkills jd ∧
    FixedEngine.calculateMatch rt jd rs [] ry rq =
      FixedEngine.calculateMatch rt jd rs (extractSkills jd) ry rq := by
  have h0 := FixedEngine.effectiveRequiredSkills_nil jd
  have h1 := FixedEngine.effectiveRequiredSkills_extract jd
  refine ⟨h0, ?_⟩
  have hpen : FixedEngine.penaltyApplied rs [] jd ↔
      FixedEngine.penaltyApplied rs (extractSkills jd) jd := by
    unfold FixedEngine.penaltyApplied
    rw [h0, h1]
  unfold FixedEngine.calculateMatch
  rw [h0, h1]
  simp only [hpen]

/-- The conclusion of the override claim: the composite is recomputed
with the experience contribution zeroed and capped at 0.20 before
rounding, the returned `matchScore` is at most 0.20, and the explanation
starts with the override notice naming the skill-match percentage. -/
def FixedEngine.OverrideOutcome (rt jd : String) (rs reqS : List String)
    (ry rq : ℚ) : Prop :=
  (FixedEngine.calculateMatch rt jd rs reqS ry rq).matchScore =
    round2 (min (calculateCoverageScore (preprocessText rt) (preprocessText jd) * 0.30 +
      FixedEngine.calculateSkillMatch rs (FixedEngine.effectiveRequiredSkills reqS jd) * 0.50 +
      0 * 0.20) 0.20) ∧
  (FixedEngine.calculateMatch rt jd rs reqS ry rq).matchScore ≤ 0.20 ∧
  ∃ rest, (FixedEngine.calculateMatch rt jd rs reqS ry rq).explanation =
    FixedEngine.overrideNotice
      (FixedEngine.calculateSkillMatch rs (FixedEngine.effectiveRequiredSkills reqS jd)) ++
      rest

/-- C1: whenever the effective required-skill set is non-empty and the
skill-match sub-score is below 0.20, the kill switch fires: the
composite is computed with the experience contribution recomputed as 0,
the final score (before rounding) is capped at 0.20 — so the returned
`matchScore` is at most 0.20 — and the explanation carries the override
notice stating the skill-match percentage and that experience was
ignored. -/
theorem claim_C1 (rt jd : String) (rs reqS : List String) (ry rq : ℚ)
    (h1 : FixedEngine.effectiveRequiredSkills reqS jd ≠ [])
    (h2 : FixedEngine.calculateSkillMatch rs
      (FixedEngine.effectiveRequiredSkills reqS jd) < 0.20) :
    FixedEngine.OverrideOutcome rt jd rs reqS ry rq := by
  have hpen : FixedEngine.penaltyApplied rs reqS jd :=
    ⟨List.length_pos.2 h1, h2⟩
  unfold FixedEngine.OverrideOutcome
  refine ⟨?_, ?_, ?_⟩
  · simp only [FixedEngine.calculateMatch, if_pos hpen]
  · have hms : (FixedEngine.calculateMatch rt jd rs reqS ry rq).matchScore =
        round2 (min (calculateCoverageScore (preprocessText rt) (preprocessText jd) * 0.30 +
          FixedEngine.calculateSkillMatch rs (FixedEngine.effectiveRequiredSkills reqS jd) * 0.50 +
          0 * 0.20) 0.20) := by
      simp only [FixedEngine.calculateMatch, if_pos hpen]
    rw [hms]
    exact round2_le_of_le_fifth (min_le_right _ _)
  · refine ⟨FixedEngine.generateExplanation
      (min (calculateCoverageScore (preprocessText rt) (preprocessText jd) * 0.30 +
        FixedEngine.calculateSkillMatch rs (FixedEngine.effectiveRequiredSkills reqS jd) * 0.50 +
        0 * 0.20) 0.20)
      (FixedEngine.calculateSkillMatch rs (FixedEngine.effectiveRequiredSkills reqS jd))
      ((FixedEngine.effectiveRequiredSkills reqS jd).filter
        (fun s => decide (lowerStr s ∈ rs.map lowerStr)))
      ((FixedEngine.effectiveRequiredSkills reqS jd).filter
        (fun s => !decide (lowerStr s ∈ rs.map lowerStr)))
      0 ry rq, ?_⟩
    simp only [FixedEngine.calculateMatch, if_pos hpen]

/-- Witness for C1 at the spec's override scenario:
requiredSkills ["Python", "AWS", "Docker"], resumeSkills ["Excel"],
15 years of experience against a 2-year requirement. -/
theorem claim_C1_witness :
    FixedEngine.OverrideOutcome "" "" ["Excel"] ["Python", "AWS", "Docker"] 15 2 :=
  claim_C1 "" "" ["Excel"] ["Python", "AWS", "Docker"] 15 2
    (by decide)
    (by
      have heff : FixedEngine.effectiveRequiredSkills ["Python", "AWS", "Docker"] "" =
          ["Python", "AWS", "Docker"] := by decide
      rw [heff]
      have hc : (((["Python", "AWS", "Docker"] : List String).map lowerStr).filter
          (fun q => decide (q ∈ (["Excel"] : List String).map lowerStr))).length = 0 := by
        decide
      have hl : ¬ (List.length (["Python", "AWS", "Docker"] : List String) = 0) := by decide
      simp only [FixedEngine.calculateSkillMatch, hc, if_neg hl]
      norm_num)

/-- C2 counterexample: with `requiredSkills = []` but a job description
containing a lexicon skill, the fallback extraction makes the effective
required set non-empty, and a resume declaring that skill gets
skillMatch 1, not 0 — refuting the claim's universal
"`requiredSkills = []` yields skillMatch = 0". -/
theorem claim_C2_counterexample :
    ¬ ((FixedEngine.calculateMatch "" "R" ["R"] [] 0 0).skillMatch = 0) := by
  have hsm : (FixedEngine.calculateMatch "" "R" ["R"] [] 0 0).skillMatch =
      round2 (FixedEngine.calculateSkillMatch ["R"]
        (FixedEngine.effectiveRequiredSkills [] "R")) := rfl
  have heff : FixedEngine.effectiveRequiredSkills [] "R" = ["R"] := by decide
  rw [hsm, heff]
  have hc : (((["R"] : List String).map lowerStr).filter
      (fun q => decide (q ∈ (["R"] : List String).map lowerStr))).length = 1 := by decide
  have hl : ¬ (List.length (["R"] : List String) = 0) := by decide
  simp only [FixedEngine.calculateSkillMatch, hc, if_neg hl]
  norm_num [round2, jsRound]

/-- C2 (amended): when the effective required-skill set is empty — that
is, the declared list is empty and extraction finds no skills in the job
description — the skill-match computation returns 0 and the
matched/missing lists are both empty. -/
theorem claim_C2 (rt jd : String) (rs reqS : List String) (ry rq : ℚ)
    (h : FixedEngine.effectiveRequiredSkills reqS jd = []) :
    FixedEngine.calculateSkillMatch rs (FixedEngine.effectiveRequiredSkills reqS jd) = 0 ∧
    (FixedEngine.calculateMatch rt jd rs reqS ry rq).skillMatch = 0 ∧
    (FixedEngine.calculateMatch rt jd rs reqS ry rq).matchedSkills = [] ∧
    (FixedEngine.calculateMatch rt jd rs reqS ry rq).missingSkills = [] := by
  have hsm0 : FixedEngine.calculateSkillMatch rs
      (FixedEngine.effectiveRequiredSkills reqS jd) = 0 := by
    rw [h]
    unfold FixedEngine.calculateSkillMatch
    simp
  refine ⟨hsm0, ?_, ?_, ?_⟩
  · have hproj : (FixedEngine.calculateMatch rt jd rs reqS ry rq).skillMatch =
        round2 (FixedEngine.calculateSkillMatch rs
          (FixedEngine.effectiveRequiredSkills reqS jd)) := rfl
    rw [hproj, hsm0]
    norm_num [round2, jsRound]
  · rw [FixedEngine.calculateMatch_matchedSkills, h]
    rfl
  · rw [FixedEngine.calculateMatch_missingSkills, h]
    rfl

/-- Witness for C2 (amended) with an empty job description: the
effective required set is empty and the conclusion holds concretely. -/
theorem claim_C2_witness :
    FixedEngine.calculateSkillMatch ["Python"]
      (FixedEngine.effectiveRequiredSkills [] "") = 0 ∧
    (FixedEngine.calculateMatch "" "" ["Python"] [] 0 0).skillMatch = 0 ∧
    (FixedEngine.calculateMatch "" "" ["Python"] [] 0 0).matchedSkills = [] ∧
    (FixedEngine.calculateMatch "" "" ["Python"] [] 0 0).missingSkills = [] :=
  claim_C2 "" "" ["Python"] [] 0 0 (by decide)

theorem testPattern_nil {pat : List Char} (h : pat ≠ []) :
    testPattern [] pat = false := by
  unfold testPattern matchesAt
  simp [Ne.symm h]

theorem mem_extractSkills_foldl (ntext : List Char) (skills : List String) :
    ∀ (acc : List String) (x : String),
      x ∈ skills.foldl (fun foundSkills skill =>
        if testPattern ntext (skill.data.map jsToLower) then jsSetAdd foundSkills skill
        else foundSkills) acc ↔
      x ∈ acc ∨ (x ∈ skills ∧ testPattern ntext (x.data.map jsToLower) = true) := by
  induction skills with
  | nil => simp
  | cons s ss ih =>
    intro acc x
    simp only [List.foldl_cons]
    by_cases ht : testPattern ntext (s.data.map jsToLower) = true
    · rw [if_pos ht, ih]
      simp only [mem_jsSetAdd, List.mem_cons]
      constructor
      · rintro ((hacc | rfl) | ⟨hss, hx⟩)
        · exact Or.inl hacc
        · exact Or.inr ⟨Or.inl rfl, ht⟩
        · exact Or.inr ⟨Or.inr hss, hx⟩
      · rintro (hacc | ⟨rfl | hss, hx⟩)
        · exact Or.inl (Or.inl hacc)
        · exact Or.inl (Or.inr rfl)
        · exact Or.inr ⟨hss, hx⟩
    · rw [if_neg ht, ih]
      constructor
      · rintro (hacc | ⟨hss, hx⟩)
        · exact Or.inl hacc
        · exact Or.inr ⟨List.mem_cons_of_mem _ hss, hx⟩
      · rintro (hacc | ⟨hmem, hx⟩)
        · exact Or.inl hacc
        · rcases List.mem_cons.1 hmem with rfl | hss
          · exact absurd hx ht
          · exact Or.inr ⟨hss, hx⟩

theorem skill_database_entries_nonempty :
    ∀ s ∈ SKILL_DATABASE, s.data ≠ [] := by decide

/-- Membership in `extractSkills text`: exactly the database entries
whose lowercased boundary pattern matches the lowercased text. -/
theorem mem_extractSkills (text x : String) :
    x ∈ extractSkills text ↔
      x ∈ SKILL_DATABASE ∧
        testPattern (text.data.map jsToLower) (x.data.map jsToLower) = true := by
  unfold extractSkills
  by_cases h0 : text = ""
  · subst h0
    rw [if_pos rfl]
    simp only [List.not_mem_nil, false_iff]
    rintro ⟨hdb, ht⟩
    have hne : x.data ≠ [] := skill_database_entries_nonempty x hdb
    have hpat : x.data.map jsToLower ≠ [] := by
      intro hc
      exact hne (List.map_eq_nil.1 hc)
    rw [show (("" : String).data.map jsToLower) = [] from rfl] at ht
    rw [testPattern_nil hpat] at ht
    exact Bool.false_ne_true ht
  · rw [if_neg h0, mem_extractSkills_foldl]
    simp only [List.not_mem_nil, false_or]
    constructor
    · rintro ⟨hs, ht⟩
      exact ⟨(List.mem_insertionSort _).1 hs, ht⟩
    · rintro ⟨hs, ht⟩
      exact ⟨(List.mem_insertionSort _).2 hs, ht⟩

/-- C7 (amended): a database entry's canonical form is added to the
result iff the entry occurs in the lowercased text with an ECMAScript
word boundary holding at both ends — at each end, the word-character
status of the adjacent text character (string ends counting as
non-word) must differ from that of the entry's first resp. last
character.  For entries that begin and end with word characters, this is
the claim's "not immediately preceded or followed by a word character";
for entries ending in '+' or '#' (C++, C#) the trailing boundary instead
demands a word character right after the entry. -/
theorem claim_C7 (text skill : String) (h : skill ∈ SKILL_DATABASE) :
    skill ∈ extractSkills text ↔
      testPattern (text.data.map jsToLower) (skill.data.map jsToLower) = true := by
  rw [mem_extractSkills]
  simp [h]

/-- Witness for C7: the entry "Python" in the text "python". -/
theorem claim_C7_witness :
    ("Python" ∈ SKILL_DATABASE) ∧
    ("Python" ∈ extractSkills "python" ↔
      testPattern (("python" : String).data.map jsToLower)
        (("Python" : String).data.map jsToLower) = true) :=
  ⟨by decide, claim_C7 "python" "Python" (by decide)⟩

/-- The claim's reading of a "whole token/phrase" occurrence: the entry
occurs in the lowercased text not immediately preceded or followed by a
word character. -/
def specWholeTokenOccurs (text pat : List Char) : Bool :=
  (List.range (text.length + 1)).any (fun i =>
    decide ((text.drop i).take pat.length = pat) &&
    !(isWordOpt (if i = 0 then none else text[i-1]?)) &&
    !(isWordOpt text[i + pat.length]?))

/-- C7 counterexample: in the text "c++" the entry "C++" occurs as a
whole token — it is the entire text, preceded and followed by nothing —
yet `extractSkills` does not add it, because the trailing ECMAScript
`\b` after a non-word character '+' demands a word character next. -/
theorem claim_C7_counterexample :
    specWholeTokenOccurs (("c++" : String).data) ((lowerStr "C++").data) = true ∧
    "C++" ∉ extractSkills "c++" :=
  ⟨by decide, by decide⟩

/-! ## C8: idempotence of the normalization pipeline

Tokens produced by `preprocessText` consist only of kept, non-space,
already-lowercase characters; joining them with single spaces and
re-running the pipeline therefore reproduces them exactly. -/

/-- The re-input of the idempotence claim: tokens of `preprocessText t` joined
by single spaces. -/
def joinWithSpace : List (List Char) → List Char
  | [] => []
  | [w] => w
  | w :: ws => w ++ ' ' :: joinWithSpace ws

/-- The token sequence of `preprocessText t`, rendered back into a
single text with one space between consecutive tokens. -/
def joinTokens (ts : List String) : String :=
  String.mk (joinWithSpace (ts.map String.data))

theorem jsToLower_idem (c : Char) : jsToLower (jsToLower c) = jsToLower c := by
  unfold jsToLower
  by_cases h : 65 ≤ c.toNat ∧ c.toNat ≤ 90
  · rw [if_pos h]
    have hval : ∀ n, n < 91 → 65 ≤ n → (Char.ofNat (n + 32)).toNat = n + 32 := by decide
    have h32 := hval c.toNat (Nat.lt_succ_of_le h.2) h.1
    rw [if_neg]
    rw [h32]
    omega
  · rw [if_neg h, if_neg h]

theorem normalized_char_good (cs : List Char) :
    ∀ c ∈ (cs.map jsToLower).map normalizeChar,
      keptChar c = true ∧ jsToLower c = c := by
  intro c hc
  rcases List.mem_map.1 hc with ⟨c1, hc1, rfl⟩
  rcases List.mem_map.1 hc1 with ⟨c0, _, rfl⟩
  unfold normalizeChar
  by_cases hk : keptChar (jsToLower c0) = true
  · rw [if_pos hk]
    exact ⟨hk, jsToLower_idem c0⟩
  · rw [if_neg hk]
    refine ⟨by decide, by decide⟩

theorem mem_collapseWSAux :
    ∀ (b : Bool) (l : List Char) (c : Char), c ∈ collapseWSAux b l →
      c = ' ' ∨ (c ∈ l ∧ jsIsSpace c = false) := by
  intro b l
  induction l generalizing b with
  | nil => intro c hc; simp [collapseWSAux] at hc
  | cons x rest ih =>
    intro c hc
    unfold collapseWSAux at hc
    by_cases hs : jsIsSpace x = true
    · rw [if_pos hs] at hc
      by_cases hb : b
      · subst hb
        rw [if_pos rfl] at hc
        rcases ih true c hc with h | ⟨hmem, hnsp⟩
        · exact Or.inl h
        · exact Or.inr ⟨List.mem_cons_of_mem _ hmem, hnsp⟩
      · rw [if_neg hb] at hc
        rcases List.mem_cons.1 hc with rfl | hc'
        · exact Or.inl rfl
        · rcases ih true c hc' with h | ⟨hmem, hnsp⟩
          · exact Or.inl h
          · exact Or.inr ⟨List.mem_cons_of_mem _ hmem, hnsp⟩
    · rw [if_neg hs] at hc
      rcases List.mem_cons.1 hc with rfl | hc'
      · exact Or.inr ⟨List.mem_cons_self _ _, Bool.not_eq_true _ ▸ (by simpa using hs)⟩
      · rcases ih false c hc' with h | ⟨hmem, hnsp⟩
        · exact Or.inl h
        · exact Or.inr ⟨List.mem_cons_of_mem _ hmem, hnsp⟩

theorem mem_trimChars {l : List Char} {c : Char} (hc : c ∈ trimChars l) : c ∈ l := by
  unfold trimChars at hc
  rw [List.mem_reverse] at hc
  have h1 := (List.dropWhile_sublist _).mem hc
  rw [List.mem_reverse] at h1
  exact (List.dropWhile_sublist _).mem h1

theorem splitSpace_ne_nil : ∀ l : List Char, splitSpace l ≠ []
  | [] => by simp [splitSpace]
  | c :: rest => by
    unfold splitSpace
    by_cases h : c = ' '
    · rw [if_pos h]; simp
    · rw [if_neg h]
      cases hs : splitSpace rest with
      | nil => simp
      | cons w ws => simp

theorem mem_splitSpace :
    ∀ (l : List Char) (w : List Char), w ∈ splitSpace l →
      ∀ c ∈ w, c ∈ l ∧ c ≠ ' ' := by
  intro l
  induction l with
  | nil =>
    intro w hw c hc
    simp [splitSpace] at hw
    subst hw
    simp at hc
  | cons x rest ih =>
    intro w hw c hc
    unfold splitSpace at hw
    by_cases hx : x = ' '
    · rw [if_pos hx] at hw
      rcases List.mem_cons.1 hw with rfl | hw'
      · simp at hc
      · have := ih w hw' c hc
        exact ⟨List.mem_cons_of_mem _ this.1, this.2⟩
    · rw [if_neg hx] at hw
      cases hs : splitSpace rest with
      | nil => exact absurd hs (splitSpace_ne_nil rest)
      | cons w0 ws =>
        rw [hs] at hw
        rcases List.mem_cons.1 hw with rfl | hw'
        · rcases List.mem_cons.1 hc with rfl | hc'
          · exact ⟨List.mem_cons_self _ _, hx⟩
          · have := ih w0 (hs ▸ List.mem_cons_self _ _) c hc'
            exact ⟨List.mem_cons_of_mem _ this.1, this.2⟩
        · have := ih w (hs ▸ List.mem_cons_of_mem _ hw') c hc
          exact ⟨List.mem_cons_of_mem _ this.1, this.2⟩

/-- Every character of every token of the pipeline is a kept, non-space,
lowercase-fixed character. -/
theorem pipelineChars_token_chars (cs : List Char) :
    ∀ w ∈ pipelineChars cs, ∀ c ∈ w,
      keptChar c = true ∧ jsIsSpace c = false ∧ jsToLower c = c := by
  intro w hw c hc
  unfold pipelineChars at hw
  have h1 := mem_splitSpace _ w hw c hc
  have h2 := mem_trimChars h1.1
  have h3 := mem_collapseWSAux false _ c h2
  rcases h3 with rfl | ⟨hmem, hnsp⟩
  · exact absurd rfl h1.2
  · have := normalized_char_good cs c hmem
    exact ⟨this.1, hnsp, this.2⟩

theorem map_eq_self_of_fix {f : Char → Char} :
    ∀ l : List Char, (∀ c ∈ l, f c = c) → l.map f = l := by
  intro l h
  induction l with
  | nil => rfl
  | cons x xs ih =>
    simp only [List.map_cons]
    rw [h x (List.mem_cons_self _ _), ih fun c hc => h c (List.mem_cons_of_mem _ hc)]

theorem mem_joinWithSpace :
    ∀ (ws : List (List Char)) (c : Char), c ∈ joinWithSpace ws →
      c = ' ' ∨ ∃ w ∈ ws, c ∈ w := by
  intro ws
  induction ws with
  | nil => intro c hc; simp [joinWithSpace] at hc
  | cons w ws' ih =>
    intro c hc
    cases ws' with
    | nil =>
      exact Or.inr ⟨w, List.mem_cons_self _ _, by simpa [joinWithSpace] using hc⟩
    | cons v vs =>
      rw [show joinWithSpace (w :: v :: vs) = w ++ ' ' :: joinWithSpace (v :: vs) from rfl]
        at hc
      rcases List.mem_append.1 hc with hw | hrest
      · exact Or.inr ⟨w, List.mem_cons_self _ _, hw⟩
      · rcases List.mem_cons.1 hrest with rfl | h2
        · exact Or.inl rfl
        · rcases ih c h2 with h | ⟨u, hu, hcu⟩
          · exact Or.inl h
          · exact Or.inr ⟨u, List.mem_cons_of_mem _ hu, hcu⟩

theorem collapseWSAux_cons (b : Bool) (c : Char) (rest : List Char) :
    collapseWSAux b (c :: rest) =
      if jsIsSpace c then
        (if b then collapseWSAux true rest else ' ' :: collapseWSAux true rest)
      else c :: collapseWSAux false rest := rfl

theorem collapseWSAux_nospace :
    ∀ (l : List Char), (∀ c ∈ l, jsIsSpace c = false) → ∀ b, collapseWSAux b l = l := by
  intro l
  induction l with
  | nil => intro _ _; rfl
  | cons x rest ih =>
    intro h b
    rw [collapseWSAux_cons, if_neg (by simp [h x (List.mem_cons_self _ _)]),
      ih (fun c hc => h c (List.mem_cons_of_mem _ hc)) false]

theorem collapseWSAux_append_nospace :
    ∀ (w l : List Char), (∀ c ∈ w, jsIsSpace c = false) →
      collapseWSAux false (w ++ l) = w ++ collapseWSAux false l := by
  intro w
  induction w with
  | nil => intro l _; rfl
  | cons x w' ih =>
    intro l h
    rw [List.cons_append, collapseWSAux_cons,
      if_neg (by simp [h x (List.mem_cons_self _ _)]),
      ih l fun c hc => h c (List.mem_cons_of_mem _ hc), List.cons_append]

theorem collapseWS_joinWithSpace :
    ∀ (ws : List (List Char)),
      (∀ w ∈ ws, w ≠ [] ∧ ∀ c ∈ w, jsIsSpace c = false) →
      ∀ b, collapseWSAux b (joinWithSpace ws) = joinWithSpace ws := by
  intro ws
  induction ws with
  | nil => intro _ b; rfl
  | cons w ws' ih =>
    intro h b
    have hw := h w (List.mem_cons_self _ _)
    have htail : ∀ u ∈ ws', u ≠ [] ∧ ∀ c ∈ u, jsIsSpace c = false :=
      fun u hu => h u (List.mem_cons_of_mem _ hu)
    cases ws' with
    | nil => exact collapseWSAux_nospace w hw.2 b
    | cons v vs =>
      rw [show joinWithSpace (w :: v :: vs) = w ++ ' ' :: joinWithSpace (v :: vs) from rfl]
      rcases List.exists_cons_of_ne_nil hw.1 with ⟨x, w0, rfl⟩
      have hx : jsIsSpace x = false := hw.2 x (List.mem_cons_self _ _)
      rw [List.cons_append, collapseWSAux_cons, if_neg (by simp [hx]),
        collapseWSAux_append_nospace w0 _
          (fun c hc => hw.2 c (List.mem_cons_of_mem _ hc)),
        collapseWSAux_cons, if_pos (by decide), if_neg (by decide),
        ih htail true]

theorem dropWhile_eq_self_of_head {p : Char → Bool} :
    ∀ (l : List Char) (x : Char), l.head? = some x → p x = false → l.dropWhile p = l := by
  intro l x hh hp
  cases l with
  | nil => simp at hh
  | cons a rest =>
    rw [List.head?_cons] at hh
    obtain rfl : a = x := by injection hh
    rw [List.dropWhile_cons, if_neg (by simp [hp])]

theorem trimChars_eq_self {l : List Char} {x y : Char}
    (hh : l.head? = some x) (hx : jsIsSpace x = false)
    (hl : l.getLast? = some y) (hy : jsIsSpace y = false) :
    trimChars l = l := by
  unfold trimChars
  rw [dropWhile_eq_self_of_head l x hh hx]
  rw [dropWhile_eq_self_of_head l.reverse y (by rw [List.head?_reverse, hl]) hy]
  exact List.reverse_reverse l

theorem joinWithSpace_ne_nil :
    ∀ (ws : List (List Char)), ws ≠ [] → (∀ u ∈ ws, u ≠ []) →
      joinWithSpace ws ≠ [] := by
  intro ws hne h
  cases ws with
  | nil => exact absurd rfl hne
  | cons w ws' =>
    cases ws' with
    | nil => exact h w (List.mem_cons_self _ _)
    | cons v vs =>
      rw [show joinWithSpace (w :: v :: vs) = w ++ ' ' :: joinWithSpace (v :: vs) from rfl]
      rcases List.exists_cons_of_ne_nil (h w (List.mem_cons_self _ _)) with ⟨a, w0, rfl⟩
      simp

theorem joinWithSpace_head? (w : List Char) (ws : List (List Char)) (hw : w ≠ []) :
    (joinWithSpace (w :: ws)).head? = w.head? := by
  cases ws with
  | nil => rfl
  | cons v vs =>
    rw [show joinWithSpace (w :: v :: vs) = w ++ ' ' :: joinWithSpace (v :: vs) from rfl]
    rcases List.exists_cons_of_ne_nil hw with ⟨a, w0, rfl⟩
    simp

theorem joinWithSpace_getLast? :
    ∀ (ws : List (List Char)), ws ≠ [] → (∀ u ∈ ws, u ≠ []) →
      ∃ u ∈ ws, (joinWithSpace ws).getLast? = u.getLast? := by
  intro ws
  induction ws with
  | nil => intro hne _; exact absurd rfl hne
  | cons w ws' ih =>
    intro _ h
    cases ws' with
    | nil => exact ⟨w, List.mem_cons_self _ _, rfl⟩
    | cons v vs =>
      rcases ih (by simp) (fun u hu => h u (List.mem_cons_of_mem _ hu)) with ⟨u, hu, hlast⟩
      refine ⟨u, List.mem_cons_of_mem _ hu, ?_⟩
      rw [show joinWithSpace (w :: v :: vs) = w ++ ' ' :: joinWithSpace (v :: vs) from rfl]
      have hJne : joinWithSpace (v :: vs) ≠ [] :=
        joinWithSpace_ne_nil _ (by simp) (fun u hu => h u (List.mem_cons_of_mem _ hu))
      rcases List.exists_cons_of_ne_nil hJne with ⟨a, J0, hJ⟩
      rw [List.getLast?_append, hJ, List.getLast?_cons_cons, ← hJ, hlast]
      have : u.getLast? ≠ none := by
        intro hnone
        exact h u (List.mem_cons_of_mem _ hu) (List.getLast?_eq_none_iff.1 hnone)
      cases hu' : u.getLast? with
      | none => exact absurd hu' this
      | some z => rfl

theorem splitSpace_cons (c : Char) (rest : List Char) :
    splitSpace (c :: rest) =
      if c = ' ' then [] :: splitSpace rest
      else
        match splitSpace rest with
        | [] => [[c]]
        | w :: ws => (c :: w) :: ws := rfl

theorem splitSpace_cons_space (rest : List Char) :
    splitSpace (' ' :: rest) = [] :: splitSpace rest := by
  rw [splitSpace_cons, if_pos rfl]

theorem splitSpace_cons_nonspace (c : Char) (rest : List Char) (h : c ≠ ' ') :
    splitSpace (c :: rest) = List.modifyHead (fun u => c :: u) (splitSpace rest) := by
  rw [splitSpace_cons, if_neg h]
  cases hs : splitSpace rest with
  | nil => exact absurd hs (splitSpace_ne_nil rest)
  | cons w ws => rfl

theorem splitSpace_append_nospace :
    ∀ (w l : List Char), (∀ c ∈ w, c ≠ ' ') →
      splitSpace (w ++ l) = List.modifyHead (fun u => w ++ u) (splitSpace l) := by
  intro w
  induction w with
  | nil =>
    intro l _
    simp only [List.nil_append]
    cases hs : splitSpace l with
    | nil => rfl
    | cons u us => simp [List.modifyHead]
  | cons x w' ih =>
    intro l h
    rw [List.cons_append,
      splitSpace_cons_nonspace x _ (h x (List.mem_cons_self _ _)),
      ih l fun c hc => h c (List.mem_cons_of_mem _ hc)]
    cases hs : splitSpace l with
    | nil => rfl
    | cons u us => simp [List.modifyHead]

theorem splitSpace_joinWithSpace :
    ∀ (ws : List (List Char)), ws ≠ [] → (∀ w ∈ ws, ∀ c ∈ w, c ≠ ' ') →
      splitSpace (joinWithSpace ws) = ws := by
  intro ws
  induction ws with
  | nil => intro hne _; exact absurd rfl hne
  | cons w ws' ih =>
    intro _ h
    cases ws' with
    | nil =>
      rw [show joinWithSpace [w] = w from rfl]
      have := splitSpace_append_nospace w [] (h w (List.mem_cons_self _ _))
      rw [List.append_nil] at this
      rw [this]
      simp [splitSpace, List.modifyHead]
    | cons v vs =>
      rw [show joinWithSpace (w :: v :: vs) = w ++ ' ' :: joinWithSpace (v :: vs) from rfl]
      rw [splitSpace_append_nospace w _ (h w (List.mem_cons_self _ _)),
        splitSpace_cons_space,
        ih (by simp) (fun u hu => h u (List.mem_cons_of_mem _ hu))]
      simp [List.modifyHead]

/-- Re-running the character pipeline on tokens joined by single spaces
reproduces the tokens: all pipeline stages fix such a text. -/
theorem pipelineChars_joinWithSpace (ws : List (List Char)) (hne : ws ≠ [])
    (h : ∀ w ∈ ws, w ≠ [] ∧ ∀ c ∈ w,
      keptChar c = true ∧ jsIsSpace c = false ∧ jsToLower c = c) :
    pipelineChars (joinWithSpace ws) = ws := by
  unfold pipelineChars
  have h1 : (joinWithSpace ws).map jsToLower = joinWithSpace ws :=
    map_eq_self_of_fix _ (fun c hc => by
      rcases mem_joinWithSpace ws c hc with rfl | ⟨w, hw, hcw⟩
      · decide
      · exact ((h w hw).2 c hcw).2.2)
  rw [h1]
  have h2 : (joinWithSpace ws).map normalizeChar = joinWithSpace ws :=
    map_eq_self_of_fix _ (fun c hc => by
      rcases mem_joinWithSpace ws c hc with rfl | ⟨w, hw, hcw⟩
      · show normalizeChar ' ' = ' '
        unfold normalizeChar
        rw [if_pos (by decide)]
      · unfold normalizeChar
        rw [if_pos ((h w hw).2 c hcw).1])
  rw [h2]
  have h3 : collapseWS (joinWithSpace ws) = joinWithSpace ws :=
    collapseWS_joinWithSpace ws
      (fun w hw => ⟨(h w hw).1, fun c hc => ((h w hw).2 c hc).2.1⟩) false
  rw [h3]
  have hnonempty : ∀ u ∈ ws, u ≠ [] := fun u hu => (h u hu).1
  rcases List.exists_cons_of_ne_nil hne with ⟨w0, ws0, rfl⟩
  have hw0 := hnonempty w0 (List.mem_cons_self _ _)
  rcases List.exists_cons_of_ne_nil hw0 with ⟨x, w00, hxw⟩
  have hhead : (joinWithSpace (w0 :: ws0)).head? = some x := by
    rw [joinWithSpace_head? w0 ws0 hw0, hxw, List.head?_cons]
  have hxgood : jsIsSpace x = false := by
    have := (h w0 (List.mem_cons_self _ _)).2 x (hxw ▸ List.mem_cons_self _ _)
    exact this.2.1
  rcases joinWithSpace_getLast? (w0 :: ws0) (by simp) hnonempty with ⟨u, hu, hlast⟩
  have huu := hnonempty u hu
  rcases List.exists_cons_of_ne_nil huu with ⟨z, u0, hzu⟩
  have hLsome : ∃ y, (joinWithSpace (w0 :: ws0)).getLast? = some y ∧ y ∈ u := by
    rw [hlast]
    cases hy : u.getLast? with
    | none => exact absurd (List.getLast?_eq_none_iff.1 hy) huu
    | some y => exact ⟨y, rfl, List.mem_of_getLast?_eq_some hy⟩
  rcases hLsome with ⟨y, hLy, hymem⟩
  have hygood : jsIsSpace y = false := ((h u hu).2 y hymem).2.1
  rw [trimChars_eq_self hhead hxgood hLy hygood]
  refine splitSpace_joinWithSpace _ (by simp) ?_
  intro w hw c hc
  intro hceq
  have := ((h w hw).2 c hc).2.1
  rw [hceq] at this
  simp [jsIsSpace] at this

/-- The tokens of `preprocessText` are nonempty, made of good
characters, and pass the keep filter. -/
theorem preprocessText_token_props (t : String) :
    ∀ s ∈ preprocessText t,
      s.data ≠ [] ∧
      (∀ c ∈ s.data, keptChar c = true ∧ jsIsSpace c = false ∧ jsToLower c = c) ∧
      keepWord s = true := by
  intro s hs
  unfold preprocessText at hs
  by_cases h0 : t = ""
  · rw [if_pos h0] at hs
    simp at hs
  · rw [if_neg h0] at hs
    have hfil := List.of_mem_filter hs
    have hmem := List.mem_of_mem_filter hs
    rcases List.mem_map.1 hmem with ⟨w, hw, rfl⟩
    refine ⟨?_, ?_, hfil⟩
    · show w ≠ []
      intro hdata
      subst hdata
      exact absurd hfil (by decide)
    · intro c hc
      exact pipelineChars_token_chars t.data w hw c
        (by simpa using hc)

/-- C8: re-normalizing the normalized output — the tokens of
`preprocessText t` joined by single spaces — yields the same token
sequence: `preprocessText (joinTokens (preprocessText t)) =
preprocessText t`. -/
theorem claim_C8 (t : String) :
    preprocessText (joinTokens (preprocessText t)) = preprocessText t := by
  cases hts : preprocessText t with
  | nil =>
    rw [show joinTokens [] = "" from rfl]
    rfl
  | cons s0 ts0 =>
    have hprops := preprocessText_token_props t
    rw [← hts]
    set ts := preprocessText t with hdef
    have htsne : ts ≠ [] := by rw [hts]; simp
    have hws : ∀ w ∈ ts.map String.data, w ≠ [] ∧ ∀ c ∈ w,
        keptChar c = true ∧ jsIsSpace c = false ∧ jsToLower c = c := by
      intro w hw
      rcases List.mem_map.1 hw with ⟨s, hsmem, rfl⟩
      have := hprops s (hdef ▸ hsmem)
      exact ⟨this.1, this.2.1⟩
    have hwsne : ts.map String.data ≠ [] := by
      rw [hts]; simp
    have hJne : joinTokens ts ≠ "" := by
      unfold joinTokens
      intro hcontra
      have : joinWithSpace (ts.map String.data) = [] := congrArg String.data hcontra
      exact joinWithSpace_ne_nil _ hwsne
        (fun u hu => (hws u hu).1) this
    unfold preprocessText
    rw [if_neg hJne]
    have hdata : (joinTokens ts).data = joinWithSpace (ts.map String.data) := rfl
    rw [hdata, pipelineChars_joinWithSpace _ hwsne hws]
    have hmapmk : (ts.map String.data).map (fun w => String.mk w) = ts := by
      rw [List.map_map]
      have hid : ∀ s : String, ((fun w => String.mk w) ∘ String.data) s = s := by
        intro s; cases s; rfl
      calc List.map ((fun w => String.mk w) ∘ String.data) ts
          = List.map id ts := List.map_congr_left (fun a _ => hid a)
        _ = ts := List.map_id ts
    rw [hmapmk]
    rw [List.filter_eq_self.2 (fun s hsmem => hprops s (hdef ▸ hsmem) |>.2.2)]
